import Mathlib

/-!
Verification of the text-extractor reference implementation
(`src/text_extractor.cpp`) against its natural-language specification.

The C++ code is shallowly embedded: `std::string` values become `List Char`
(file paths stay `String`), the regex patterns become an executable
backtracking matcher over a small regex syntax, the splitting loop becomes a
fuel-indexed recursion returning `Option` (`none` = the C++ loop would not
have terminated within the given fuel), and the worksheet parser becomes a
fold over the list of input lines.
-/

namespace TextExtractor

/-- Backslash character (kept as a named constant to avoid escape noise). -/
def bsC : Char := Char.ofNat 92

/-- Double-quote character. -/
def dqC : Char := Char.ofNat 34

/-- Single-quote character. -/
def sqC : Char := Char.ofNat 39

/-- `TextChunk` record, as in the C++ `struct TextChunk` (lines 66-74). -/
structure TextChunk where
  text : List Char
  file_path : String
  line_number : Nat
  column_start : Nat
  column_end : Nat
  context : List Char
  original_text : List Char
deriving DecidableEq, Repr

/-- `ExtractionResult` (lines 76-81); `processing_time` is wall-clock time and
is not modelled. -/
structure ExtractionResult where
  chunks : List TextChunk
  total_files_processed : Nat
  total_texts_found : Nat
deriving DecidableEq, Repr

/-- Default `min_text_length` (line 50). -/
def min_text_length : Nat := 3

/-- Default `max_chunk_size` (line 53). -/
def max_chunk_size : Nat := 50000

/-! ### Text Cleaner (`clean_text`, lines 324-344) -/

/-- `std::isspace` in the default C locale. -/
def isSpaceB (c : Char) : Bool :=
  c == ' ' || c == Char.ofNat 9 || c == Char.ofNat 10 || c == Char.ofNat 11 ||
  c == Char.ofNat 12 || c == Char.ofNat 13

/-- `std::regex_replace` for a two-character literal pattern `[a, b]` with
replacement `rep`: replaces non-overlapping occurrences left to right. -/
def replace2 (a b : Char) (rep : List Char) : List Char → List Char
  | [] => []
  | [c] => [c]
  | c :: d :: rest =>
    if c = a ∧ d = b then rep ++ replace2 a b rep rest
    else c :: replace2 a b rep (d :: rest)

/-- Erase leading whitespace (lines 336-338). -/
def trimLeft (l : List Char) : List Char := l.dropWhile isSpaceB

/-- Erase trailing whitespace (lines 339-341). -/
def trimRight (l : List Char) : List Char := (l.reverse.dropWhile isSpaceB).reverse

/-- Trim both ends, leading first, as the code does. -/
def trim (l : List Char) : List Char := trimRight (trimLeft l)

/-- `TextExtractor::clean_text` (lines 324-344): the six escape-token
substitutions in source order, backslash last, then trim. -/
def clean_text (t : List Char) : List Char :=
  trim (replace2 bsC bsC [bsC]
    (replace2 bsC sqC [sqC]
      (replace2 bsC dqC [dqC]
        (replace2 bsC 'r' [Char.ofNat 13]
          (replace2 bsC 't' [Char.ofNat 9]
            (replace2 bsC 'n' [Char.ofNat 10] t))))))

/-! ### Chunk Splitter (`split_into_chunks`, lines 160-198) -/

/-- `std::string::rfind(' ', pos)`: the largest index `p ≤ pos` holding a
space, if any. -/
def rfindSpace (t : List Char) : Nat → Option Nat
  | 0 => if t[0]? = some ' ' then some 0 else none
  | p + 1 => if t[p + 1]? = some ' ' then some (p + 1) else rfindSpace t p

/-- The boundary chosen for the fragment starting at `start` (lines 173-181):
a prefix of up to `maxsz` characters, moved back to the last space strictly
after `start` when the boundary falls before the end of the text. -/
def computeEnd (t : List Char) (maxsz start : Nat) : Nat :=
  if min (start + maxsz) t.length < t.length then
    match rfindSpace t (min (start + maxsz) t.length) with
    | some p => if start < p then p else min (start + maxsz) t.length
    | none => min (start + maxsz) t.length
  else min (start + maxsz) t.length

/-- Advance of the next fragment start past a space boundary (lines 188-191). -/
def nextStart (t : List Char) (e : Nat) : Nat :=
  if t[e]? = some ' ' then e + 1 else e

/-- Fragment construction (lines 183-185): copy of the source chunk with the
text slice and the `_chunk_<n>` suffixed path. -/
def mkFragment (ch : TextChunk) (t : List Char) (start e cid : Nat) : TextChunk :=
  { ch with
    text := (t.drop start).take (e - start),
    file_path := ch.file_path ++ "_chunk_" ++ toString cid }

/-- The `while (start < text.length())` loop (lines 172-193), indexed by fuel;
`none` means the fuel ran out while the loop guard still held (so the C++
loop would still be running). -/
def splitLoop (maxsz : Nat) (ch : TextChunk) (t : List Char) :
    Nat → Nat → Nat → Option (List TextChunk)
  | 0, start, _ => if start < t.length then none else some []
  | fuel + 1, start, cid =>
    if start < t.length then
      let e := computeEnd t maxsz start
      match splitLoop maxsz ch t fuel (nextStart t e) (cid + 1) with
      | some rest => some (mkFragment ch t start e cid :: rest)
      | none => none
    else some []

/-- Processing of one chunk by `split_into_chunks`: within bound it passes
through unchanged (lines 164-165), otherwise the splitting loop runs with
fuel `text.length` (sufficient whenever `1 ≤ maxsz`). -/
def splitOne (maxsz : Nat) (ch : TextChunk) : Option (List TextChunk) :=
  if ch.text.length ≤ maxsz then some [ch]
  else splitLoop maxsz ch ch.text ch.text.length 0 0

/-- `TextExtractor::split_into_chunks` (lines 160-198). -/
def split_into_chunks (maxsz : Nat) : List TextChunk → Option (List TextChunk)
  | [] => some []
  | c :: rest =>
    match splitOne maxsz c, split_into_chunks maxsz rest with
    | some f, some r => some (f ++ r)
    | _, _ => none

/-- Rejoining of split fragments: between consecutive fragments, one space is
reinserted where the marker is `true` (a space-based cut) and nothing where it
is `false` (a hard mid-word cut). -/
def rejoin : List (List Char) → List Bool → List Char
  | [], _ => []
  | f :: rest, [] => f ++ rejoin rest []
  | f :: rest, b :: bs => f ++ (if b then [' '] else []) ++ rejoin rest bs

/-! ### Translation Store (`apply_translations`, lines 284-321) -/

/-- Line tag `ID: `. -/
def idTag : List Char := ['I', 'D', ':', ' ']

/-- Line tag `File: `. -/
def fileTag : List Char := ['F', 'i', 'l', 'e', ':', ' ']

/-- Line tag `Line: `. -/
def lineTag : List Char := ['L', 'i', 'n', 'e', ':', ' ']

/-- Line tag `Original: `. -/
def origTag : List Char := ['O', 'r', 'i', 'g', 'i', 'n', 'a', 'l', ':', ' ']

/-- Line tag `Translation: `. -/
def transTag : List Char :=
  ['T', 'r', 'a', 'n', 's', 'l', 'a', 't', 'i', 'o', 'n', ':', ' ']

/-- `line.find(tag) == 0`, i.e. `tag` begins `line`. -/
def lstartsWith : List Char → List Char → Bool
  | [], _ => true
  | _ :: _, [] => false
  | a :: as, b :: bs => a == b && lstartsWith as bs

/-- `std::unordered_map` assignment `m[k] = v`: overwrite the value when the
key is present, otherwise add the entry. -/
def mapInsert (m : List (List Char × List Char)) (k v : List Char) :
    List (List Char × List Char) :=
  if m.any (fun e => e.1 == k) then
    m.map (fun e => if e.1 == k then (e.1, v) else e)
  else m ++ [(k, v)]

/-- One iteration of the `while (std::getline(...))` loop of
`apply_translations` (lines 298-309); the state is
`(current_id, current_original, translations)`. -/
def applyStep (st : List Char × List Char × List (List Char × List Char))
    (line : List Char) : List Char × List Char × List (List Char × List Char) :=
  if lstartsWith idTag line then (line.drop 4, st.2.1, st.2.2)
  else if lstartsWith origTag line then (st.1, line.drop 10, st.2.2)
  else if lstartsWith transTag line then
    let tr := line.drop 13
    if !(tr == []) && !(tr == [' ']) then (st.1, st.2.1, mapInsert st.2.2 st.2.1 tr)
    else st
  else st

/-- `TextExtractor::apply_translations` (lines 284-321), restricted to its
observable result: the mapping built from the worksheet lines. -/
def apply_translations (lines : List (List Char)) : List (List Char × List Char) :=
  (lines.foldl applyStep ([], [], [])).2.2

/-- One worksheet record as written by `save_extracted_texts` (lines 266-273)
and possibly filled in by a translator. -/
structure TRecord where
  rid : List Char
  rfile : List Char
  rline : List Char
  original : List Char
  translation : List Char
deriving DecidableEq, Repr

/-- The lines `save_extracted_texts` emits for one record, with the
`Translation:` value as (possibly) filled in by the translator. -/
def renderRecord (r : TRecord) : List (List Char) :=
  [idTag ++ r.rid, fileTag ++ r.rfile, lineTag ++ r.rline,
   origTag ++ r.original, transTag ++ r.translation, ['-', '-', '-'], []]

/-- The master-worksheet header line (line 264). -/
def wsHeaderLine : List Char :=
  ['=', '=', '=', ' ', 'M', 'A', 'S', 'T', 'E', 'R', ' ', 'T', 'R', 'A', 'N',
   'S', 'L', 'A', 'T', 'I', 'O', 'N', ' ', 'F', 'I', 'L', 'E', ' ', '=', '=', '=']

/-- A full worksheet: header, blank line, then the records. -/
def renderWorksheet (rs : List TRecord) : List (List Char) :=
  wsHeaderLine :: [] :: rs.flatMap renderRecord

/-- A `Translation:` value counts only when non-empty and not a single
blank space (line 305). -/
def nonPlaceholder (tr : List Char) : Bool := !(tr == []) && !(tr == [' '])

/-! ### Pattern Registry and Extraction Engine (lines 20-40, 109-157)

The `std::regex` patterns of `text_patterns` are embedded as values of a
small regex syntax together with an ECMAScript-style backtracking matcher
(leftmost match position; left alternative and greedy repetition first; a
repetition iteration must consume input). The matcher carries explicit fuel,
decremented at every step; `none` on fuel exhaustion. -/

/-- Regex syntax: empty, single character, character class, concatenation,
alternation, greedy star, capturing group. -/
inductive RE where
  | eps : RE
  | chr : Char → RE
  | cls : (Char → Bool) → RE
  | seq : RE → RE → RE
  | alt : RE → RE → RE
  | star : RE → RE
  | group : Nat → RE → RE

/-- Captures: `(group index, start position, length)`, most recent first. -/
def Caps := List (Nat × Nat × Nat)

/-- Backtracking matcher in continuation-passing style over the input `s`.
`mrun s fuel r pos caps k` tries to match `r` at position `pos` and passes
the end position and captures to `k`. -/
def mrun (s : List Char) : Nat → RE → Nat → Caps →
    (Nat → Caps → Option (Nat × Caps)) → Option (Nat × Caps)
  | 0, _, _, _, _ => none
  | fuel + 1, r, pos, caps, k =>
    match r with
    | .eps => k pos caps
    | .chr c =>
      match s[pos]? with
      | some d => if d = c then k (pos + 1) caps else none
      | none => none
    | .cls f =>
      match s[pos]? with
      | some d => if f d then k (pos + 1) caps else none
      | none => none
    | .seq a b => mrun s fuel a pos caps (fun p cp => mrun s fuel b p cp k)
    | .alt a b =>
      match mrun s fuel a pos caps k with
      | some res => some res
      | none => mrun s fuel b pos caps k
    | .star r' =>
      match mrun s fuel r' pos caps
          (fun p cp => if pos < p then mrun s fuel (.star r') p cp k else none) with
      | some res => some res
      | none => k pos caps
    | .group i r' => mrun s fuel r' pos caps (fun p cp => k p ((i, pos, p - pos) :: cp))

/-- Fuel budget for one match attempt; generous, and irrelevant to any of the
universally quantified statements below. -/
def matchFuel (s : List Char) : Nat := (s.length + 1) * 1000

/-- Try to match `r` at exactly position `pos`, returning the end position
and captures of the leftmost-biased (ECMAScript) match. -/
def matchAt (s : List Char) (r : RE) (pos : Nat) : Option (Nat × Caps) :=
  mrun s (matchFuel s) r pos [] (fun p cp => some (p, cp))

/-- `regex_search` from position `pos`: the first position `≥ pos` at which
`r` matches, with the match end and captures. -/
def firstMatchFrom (s : List Char) (r : RE) : Nat → Nat → Option (Nat × Nat × Caps)
  | 0, _ => none
  | fuel + 1, pos =>
    if pos ≤ s.length then
      match matchAt s r pos with
      | some (e, cp) => some (pos, e, cp)
      | none => firstMatchFrom s r fuel (pos + 1)
    else none

/-- `std::sregex_iterator`: all successive matches of `r` over `s`. -/
def findFrom (s : List Char) (r : RE) : Nat → Nat → List (Nat × Nat × Caps)
  | 0, _ => []
  | fuel + 1, pos =>
    match firstMatchFrom s r (s.length + 1) pos with
    | some (ms, me, cp) => (ms, me, cp) :: findFrom s r fuel (max me (ms + 1))
    | none => []

/-- All matches of `r` over `s`. -/
def findMatches (s : List Char) (r : RE) : List (Nat × Nat × Caps) :=
  findFrom s r (s.length + 1) 0

/-- Position and length of capturing group `i` (most recent wins), as
`match.position(i)` / `match.length(i)` deliver them. -/
def capLookup (cp : Caps) (i : Nat) : Nat × Nat :=
  match cp.find? (fun e => e.1 == i) with
  | some e => (e.2.1, e.2.2)
  | none => (0, 0)

/-- `substr`-style slice `[a, b)` of a character list. -/
def slice (s : List Char) (a b : Nat) : List Char := (s.drop a).take (b - a)

/-- Literal character sequence as a regex. -/
def reChars (l : List Char) : RE := l.foldr (fun c r => .seq (.chr c) r) .eps

/-- `r+` as `r r*`. -/
def rePlus (r : RE) : RE := .seq r (.star r)

/-- ECMAScript `\s` (ASCII portion). -/
def wsClass (c : Char) : Bool :=
  c == ' ' || c == Char.ofNat 9 || c == Char.ofNat 10 || c == Char.ofNat 11 ||
  c == Char.ofNat 12 || c == Char.ofNat 13

/-- ECMAScript `.`: any character except a line terminator. -/
def dotAny (c : Char) : Bool := !(c == Char.ofNat 10 || c == Char.ofNat 13)

/-- `[^"\]`. -/
def notDq (c : Char) : Bool := !(c == dqC || c == bsC)

/-- `[^'\]`. -/
def notSq (c : Char) : Bool := !(c == sqC || c == bsC)

/-- `[^"']`. -/
def notQ (c : Char) : Bool := !(c == dqC || c == sqC)

/-- Double-quoted string literal with escaping (line 21). -/
def reDQuote : RE :=
  .seq (.chr dqC)
    (.seq (.group 1 (.seq (.star (.cls notDq))
        (.star (.seq (.chr bsC) (.seq (.cls dotAny) (.star (.cls notDq)))))))
      (.chr dqC))

/-- Single-quoted string literal with escaping (line 22). -/
def reSQuote : RE :=
  .seq (.chr sqC)
    (.seq (.group 1 (.seq (.star (.cls notSq))
        (.star (.seq (.chr bsC) (.seq (.cls dotAny) (.star (.cls notSq)))))))
      (.chr sqC))

/-- Key/value rule `key\s*[:=]\s*["']([^"']+)["']` (lines 23-30). -/
def reKV (key : String) : RE :=
  .seq (reChars key.toList)
    (.seq (.star (.cls wsClass))
      (.seq (.alt (.chr ':') (.chr '='))
        (.seq (.star (.cls wsClass))
          (.seq (.alt (.chr dqC) (.chr sqC))
            (.seq (.group 1 (rePlus (.cls notQ)))
              (.alt (.chr dqC) (.chr sqC)))))))

/-- XML-style rule `<key>([^<]+)</key>` (lines 31-39). -/
def reXML (key : String) : RE :=
  .seq (reChars ("<" ++ key ++ ">").toList)
    (.seq (.group 1 (rePlus (.cls (fun c => !(c == '<')))))
      (reChars ("</" ++ key ++ ">").toList))

/-- The fixed pattern registry `text_patterns` (lines 20-40), in source
order. -/
def text_patterns : List RE :=
  [reDQuote, reSQuote,
   reKV "text", reKV "label", reKV "message", reKV "title", reKV "description",
   reKV "name", reKV "value", reKV "content",
   reXML "text", reXML "string", reXML "message", reXML "label", reXML "title",
   reXML "description", reXML "name", reXML "value", reXML "content"]

/-- The chunks produced from one raw line (lines 124-148): every pattern is
applied independently; each capture is cleaned; a chunk is emitted only when
the cleaned text reaches `min_text_length` `ml`. -/
def chunksOfLine (ml : Nat) (fp : String) (ln : Nat) (line : List Char) :
    List TextChunk :=
  text_patterns.flatMap fun re =>
    (findMatches line re).filterMap fun m =>
      let gs := (capLookup m.2.2 1).1
      let gl := (capLookup m.2.2 1).2
      let cleaned := clean_text (slice line gs (gs + gl))
      if ml ≤ cleaned.length then
        some { text := cleaned, file_path := fp, line_number := ln,
               column_start := gs, column_end := gs + gl,
               context := line, original_text := slice line m.1 m.2.1 }
      else none

/-- `TextExtractor::extract_from_file` on an opened file, given its lines
(lines 118-149); line numbering is 1-based. -/
def extract_from_lines (ml : Nat) (fp : String) (lines : List (List Char)) :
    List TextChunk :=
  lines.enum.flatMap fun il => chunksOfLine ml fp (il.1 + 1) il.2

/-- `TextExtractor::extract_from_file` (lines 109-157) over a modelled file:
`none` content stands for a file that cannot be opened, in which case the
function returns an empty chunk list without reporting anything
(lines 114-116); the second component is the error output the call produces
on `stderr` (a failed open produces none — only a read exception would, and
nothing throws in the model). -/
def extract_from_file (ml : Nat) (fp : String)
    (content : Option (List (List Char))) : List TextChunk × List String :=
  match content with
  | none => ([], [])
  | some lines => (extract_from_lines ml fp lines, [])

/-- `TextExtractor::extract_texts` (lines 201-225) over a modelled directory
scan: a list of (path, openable content) pairs. `total_files_processed` is
the scanned file count, `total_texts_found` the post-split chunk count. -/
def extract_texts (ml maxsz : Nat)
    (fs : List (String × Option (List (List Char)))) : Option ExtractionResult :=
  match split_into_chunks maxsz
      (fs.flatMap fun pc => (extract_from_file ml pc.1 pc.2).1) with
  | some chunks => some ⟨chunks, fs.length, chunks.length⟩
  | none => none

/-! ### Splitter lemmas -/

theorem rfindSpace_spec {t : List Char} : ∀ {pos p : Nat},
    rfindSpace t pos = some p → p ≤ pos ∧ t[p]? = some ' ' := by
  intro pos
  induction pos with
  | zero =>
    intro p h
    simp only [rfindSpace] at h
    split at h
    · injection h with h'; subst h'; exact ⟨Nat.le_refl 0, by assumption⟩
    · exact Option.noConfusion h
  | succ n ih =>
    intro p h
    simp only [rfindSpace] at h
    split at h
    · injection h with h'; subst h'; exact ⟨Nat.le_refl _, by assumption⟩
    · rcases ih h with ⟨h1, h2⟩; exact ⟨Nat.le_succ_of_le h1, h2⟩

theorem rfindSpace_ge {t : List Char} : ∀ {pos q : Nat}, q ≤ pos →
    t[q]? = some ' ' → ∃ p, rfindSpace t pos = some p ∧ q ≤ p := by
  intro pos
  induction pos with
  | zero =>
    intro q hq hsp
    have hq0 : q = 0 := Nat.le_zero.mp hq
    subst hq0
    exact ⟨0, by simp [rfindSpace, hsp], Nat.le_refl 0⟩
  | succ n ih =>
    intro q hq hsp
    by_cases hc : t[n + 1]? = some ' '
    · exact ⟨n + 1, by simp [rfindSpace, hc], hq⟩
    · have hq' : q ≤ n := by
        rcases Nat.lt_or_ge q (n + 1) with h | h
        · omega
        · exfalso; have hqe : q = n + 1 := by omega
          subst hqe; exact hc hsp
      rcases ih hq' hsp with ⟨p, hp1, hp2⟩
      exact ⟨p, by simp [rfindSpace, hc, hp1], hp2⟩

theorem computeEnd_cases (t : List Char) (maxsz start : Nat) :
    computeEnd t maxsz start = min (start + maxsz) t.length ∨
    ∃ p, rfindSpace t (min (start + maxsz) t.length) = some p ∧ start < p ∧
      computeEnd t maxsz start = p := by
  by_cases hlt : min (start + maxsz) t.length < t.length
  · cases hf : rfindSpace t (min (start + maxsz) t.length) with
    | none => left; unfold computeEnd; simp [hlt, hf]
    | some p =>
      by_cases hp : start < p
      · right
        refine ⟨p, rfl, hp, ?_⟩
        unfold computeEnd; simp [hlt, hf, hp]
      · left; unfold computeEnd; simp [hlt, hf, hp]
  · left; unfold computeEnd; simp [hlt]

theorem computeEnd_le_length (t : List Char) (maxsz start : Nat) :
    computeEnd t maxsz start ≤ t.length := by
  rcases computeEnd_cases t maxsz start with h | ⟨p, hf, _, h⟩
  · omega
  · have := (rfindSpace_spec hf).1; omega

theorem computeEnd_sub_le (t : List Char) (maxsz start : Nat) :
    computeEnd t maxsz start - start ≤ maxsz := by
  rcases computeEnd_cases t maxsz start with h | ⟨p, hf, _, h⟩
  · omega
  · have := (rfindSpace_spec hf).1; omega

theorem le_computeEnd {t : List Char} {maxsz start : Nat} (hs : start < t.length) :
    start ≤ computeEnd t maxsz start := by
  rcases computeEnd_cases t maxsz start with h | ⟨p, _, hp, h⟩
  · omega
  · omega

theorem lt_computeEnd {t : List Char} {maxsz start : Nat} (hm : 1 ≤ maxsz)
    (hs : start < t.length) : start < computeEnd t maxsz start := by
  rcases computeEnd_cases t maxsz start with h | ⟨p, _, hp, h⟩
  · omega
  · omega

theorem le_nextStart (t : List Char) (e : Nat) : e ≤ nextStart t e := by
  unfold nextStart; split <;> omega

theorem splitLoop_exit {maxsz : Nat} {ch : TextChunk} {t : List Char}
    {fuel start cid : Nat} (h : t.length ≤ start) :
    splitLoop maxsz ch t fuel start cid = some [] := by
  cases fuel <;> simp [splitLoop, Nat.not_lt.mpr h]

theorem splitLoop_zero_of_lt {maxsz : Nat} {ch : TextChunk} {t : List Char}
    {start cid : Nat} (h : start < t.length) :
    splitLoop maxsz ch t 0 start cid = none := by
  simp [splitLoop, h]

theorem splitLoop_succ {maxsz : Nat} {ch : TextChunk} {t : List Char}
    {fuel start cid : Nat} (h : start < t.length) :
    splitLoop maxsz ch t (fuel + 1) start cid =
      match splitLoop maxsz ch t fuel (nextStart t (computeEnd t maxsz start)) (cid + 1) with
      | some rest => some (mkFragment ch t start (computeEnd t maxsz start) cid :: rest)
      | none => none := by
  simp [splitLoop, h]

theorem splitLoop_succ_some {maxsz : Nat} {ch : TextChunk} {t : List Char}
    {fuel start cid : Nat} {rest : List TextChunk} (h : start < t.length)
    (hrec : splitLoop maxsz ch t fuel
        (nextStart t (computeEnd t maxsz start)) (cid + 1) = some rest) :
    splitLoop maxsz ch t (fuel + 1) start cid =
      some (mkFragment ch t start (computeEnd t maxsz start) cid :: rest) := by
  rw [splitLoop_succ h, hrec]

theorem splitLoop_bound {maxsz : Nat} {ch : TextChunk} {t : List Char} :
    ∀ {fuel start cid frags}, splitLoop maxsz ch t fuel start cid = some frags →
      ∀ c ∈ frags, c.text.length ≤ maxsz := by
  intro fuel
  induction fuel with
  | zero =>
    intro start cid frags h c hc
    by_cases hs : start < t.length
    · rw [splitLoop_zero_of_lt hs] at h; exact Option.noConfusion h
    · rw [splitLoop_exit (Nat.le_of_not_lt hs)] at h
      injection h with h'; subst h'; exact absurd hc (List.not_mem_nil c)
  | succ n ih =>
    intro start cid frags h c hc
    by_cases hs : start < t.length
    · rw [splitLoop_succ hs] at h
      cases hrec : splitLoop maxsz ch t n
          (nextStart t (computeEnd t maxsz start)) (cid + 1) with
      | none => rw [hrec] at h; exact Option.noConfusion h
      | some rest =>
        rw [hrec] at h
        injection h with h'
        subst h'
        rcases List.mem_cons.mp hc with hc' | hc'
        · subst hc'
          show ((t.drop start).take (computeEnd t maxsz start - start)).length ≤ maxsz
          exact le_trans (List.length_take_le _ _) (computeEnd_sub_le t maxsz start)
        · exact ih hrec c hc'
    · rw [splitLoop_exit (Nat.le_of_not_lt hs)] at h
      injection h with h'; subst h'; exact absurd hc (List.not_mem_nil c)

theorem splitLoop_isSome {maxsz : Nat} (hm : 1 ≤ maxsz) {ch : TextChunk}
    {t : List Char} : ∀ {fuel start cid}, t.length ≤ start + fuel →
      (splitLoop maxsz ch t fuel start cid).isSome = true := by
  intro fuel
  induction fuel with
  | zero =>
    intro start cid hle
    rw [splitLoop_exit (by omega)]; rfl
  | succ n ih =>
    intro start cid hle
    by_cases hs : start < t.length
    · rw [splitLoop_succ hs]
      have hprog : start < computeEnd t maxsz start := lt_computeEnd hm hs
      have hnext := le_nextStart t (computeEnd t maxsz start)
      have hfit : t.length ≤ nextStart t (computeEnd t maxsz start) + n := by omega
      have hrec := @ih (nextStart t (computeEnd t maxsz start)) (cid + 1) hfit
      cases h' : splitLoop maxsz ch t n
          (nextStart t (computeEnd t maxsz start)) (cid + 1) with
      | some rest => simp
      | none => rw [h'] at hrec; simp at hrec
    · rw [splitLoop_exit (Nat.le_of_not_lt hs)]; rfl

theorem splitLoop_rejoin {maxsz : Nat} {ch : TextChunk} {t : List Char} :
    ∀ {fuel start cid frags}, splitLoop maxsz ch t fuel start cid = some frags →
      ∃ bs, rejoin (frags.map TextChunk.text) bs = t.drop start := by
  intro fuel
  induction fuel with
  | zero =>
    intro start cid frags h
    by_cases hs : start < t.length
    · rw [splitLoop_zero_of_lt hs] at h; exact Option.noConfusion h
    · rw [splitLoop_exit (Nat.le_of_not_lt hs)] at h
      injection h with h'; subst h'
      exact ⟨[], by simp [rejoin, List.drop_eq_nil_of_le (Nat.le_of_not_lt hs)]⟩
  | succ n ih =>
    intro start cid frags h
    by_cases hs : start < t.length
    · rw [splitLoop_succ hs] at h
      cases hrec : splitLoop maxsz ch t n
          (nextStart t (computeEnd t maxsz start)) (cid + 1) with
      | none => rw [hrec] at h; exact Option.noConfusion h
      | some rest =>
        rw [hrec] at h
        injection h with h'
        subst h'
        rcases ih hrec with ⟨bs', hbs⟩
        have hse : start ≤ computeEnd t maxsz start := le_computeEnd hs
        have hsplit : t.drop start =
            (t.drop start).take (computeEnd t maxsz start - start) ++
              t.drop (computeEnd t maxsz start) := by
          conv_lhs => rw [← List.take_append_drop
            (computeEnd t maxsz start - start) (t.drop start)]
          rw [List.drop_drop]
          congr 2
          omega
        by_cases hsp : t[computeEnd t maxsz start]? = some ' '
        · have hlt : computeEnd t maxsz start < t.length :=
            (List.getElem?_eq_some_iff.mp hsp).1
          have hdropE : t.drop (computeEnd t maxsz start) =
              ' ' :: t.drop (computeEnd t maxsz start + 1) := by
            rw [List.drop_eq_getElem_cons hlt]
            rcases List.getElem?_eq_some_iff.mp hsp with ⟨_, hg⟩
            rw [hg]
          have hnext : nextStart t (computeEnd t maxsz start) =
              computeEnd t maxsz start + 1 := by
            unfold nextStart; rw [if_pos hsp]
          rw [hnext] at hbs
          refine ⟨true :: bs', ?_⟩
          simp only [List.map_cons, rejoin, if_pos]
          rw [hbs, hsplit, hdropE]
          simp [mkFragment]
        · have hnext : nextStart t (computeEnd t maxsz start) =
              computeEnd t maxsz start := by
            unfold nextStart; rw [if_neg hsp]
          rw [hnext] at hbs
          refine ⟨false :: bs', ?_⟩
          simp only [List.map_cons, rejoin, if_neg]
          rw [hbs, hsplit]
          simp [mkFragment]
    · rw [splitLoop_exit (Nat.le_of_not_lt hs)] at h
      injection h with h'; subst h'
      exact ⟨[], by simp [rejoin, List.drop_eq_nil_of_le (Nat.le_of_not_lt hs)]⟩

theorem computeEnd_zero {t : List Char} {start : Nat} (hs : start < t.length) :
    computeEnd t 0 start = start := by
  rcases computeEnd_cases t 0 start with h | ⟨p, hf, hp, h⟩
  · omega
  · have := (rfindSpace_spec hf).1
    omega

theorem splitLoop_stuck {ch : TextChunk} {t : List Char} :
    ∀ {fuel start cid}, (∃ i, start ≤ i ∧ i < t.length ∧ ¬ t[i]? = some ' ') →
      splitLoop 0 ch t fuel start cid = none := by
  intro fuel
  induction fuel with
  | zero =>
    rintro start cid ⟨i, h1, h2, _⟩
    exact splitLoop_zero_of_lt (by omega)
  | succ n ih =>
    rintro start cid ⟨i, h1, h2, h3⟩
    have hs : start < t.length := by omega
    rw [splitLoop_succ hs, computeEnd_zero hs]
    have hnone : splitLoop 0 ch t n (nextStart t start) (cid + 1) = none := by
      apply ih
      by_cases hsp : t[start]? = some ' '
      · have hne : i ≠ start := fun he => h3 (he ▸ hsp)
        exact ⟨i, by unfold nextStart; rw [if_pos hsp]; omega, h2, h3⟩
      · exact ⟨i, by unfold nextStart; rw [if_neg hsp]; omega, h2, h3⟩
    rw [hnone]

theorem splitOne_bound {maxsz : Nat} {ch : TextChunk} {frags : List TextChunk}
    (h : splitOne maxsz ch = some frags) : ∀ c ∈ frags, c.text.length ≤ maxsz := by
  unfold splitOne at h
  split at h
  · injection h with h'; subst h'
    intro c hc
    rw [List.mem_singleton] at hc
    subst hc
    assumption
  · exact splitLoop_bound h

theorem splitOne_of_le {maxsz : Nat} {ch : TextChunk}
    (h : ch.text.length ≤ maxsz) : splitOne maxsz ch = some [ch] := by
  unfold splitOne; rw [if_pos h]

theorem split_into_chunks_cons_eq {maxsz : Nat} {c : TextChunk}
    {rest : List TextChunk} {f r : List TextChunk} (hf : splitOne maxsz c = some f)
    (hr : split_into_chunks maxsz rest = some r) :
    split_into_chunks maxsz (c :: rest) = some (f ++ r) := by
  simp only [split_into_chunks]
  rw [hf, hr]

theorem split_into_chunks_singleton {maxsz : Nat} {ch : TextChunk}
    {frags : List TextChunk} (h : split_into_chunks maxsz [ch] = some frags) :
    splitOne maxsz ch = some frags := by
  unfold split_into_chunks at h
  cases hf : splitOne maxsz ch with
  | none => rw [hf] at h; exact Option.noConfusion h
  | some f =>
    rw [hf] at h
    injection h with h'
    rw [List.append_nil] at h'
    rw [h']

theorem split_into_chunks_bound {maxsz : Nat} : ∀ {cs out : List TextChunk},
    split_into_chunks maxsz cs = some out → ∀ c ∈ out, c.text.length ≤ maxsz := by
  intro cs
  induction cs with
  | nil =>
    intro out h c hc
    unfold split_into_chunks at h
    injection h with h'; subst h'
    exact absurd hc (List.not_mem_nil c)
  | cons c0 rest ih =>
    intro out h c hc
    unfold split_into_chunks at h
    cases hf : splitOne maxsz c0 with
    | none => rw [hf] at h; exact Option.noConfusion h
    | some f =>
      cases hr : split_into_chunks maxsz rest with
      | none => rw [hf, hr] at h; exact Option.noConfusion h
      | some r =>
        rw [hf, hr] at h
        injection h with h'
        subst h'
        rcases List.mem_append.mp hc with hcf | hcr
        · exact splitOne_bound hf c hcf
        · exact ih hr c hcr

theorem split_into_chunks_pass {maxsz : Nat} : ∀ {cs out : List TextChunk},
    split_into_chunks maxsz cs = some out →
      ∀ c ∈ cs, c.text.length ≤ maxsz → c ∈ out := by
  intro cs
  induction cs with
  | nil =>
    intro out _ c hc
    exact absurd hc (List.not_mem_nil c)
  | cons c0 rest ih =>
    intro out h c hc hlen
    unfold split_into_chunks at h
    cases hf : splitOne maxsz c0 with
    | none => rw [hf] at h; exact Option.noConfusion h
    | some f =>
      cases hr : split_into_chunks maxsz rest with
      | none => rw [hf, hr] at h; exact Option.noConfusion h
      | some r =>
        rw [hf, hr] at h
        injection h with h'
        subst h'
        rcases List.mem_cons.mp hc with hc' | hc'
        · subst hc'
          rw [splitOne_of_le hlen] at hf
          injection hf with hf'
          subst hf'
          exact List.mem_append.mpr (Or.inl (List.mem_singleton.mpr rfl))
        · exact List.mem_append.mpr (Or.inr (ih hr c hc' hlen))

theorem split_into_chunks_isSome {maxsz : Nat} (hm : 1 ≤ maxsz) :
    ∀ cs : List TextChunk, (split_into_chunks maxsz cs).isSome = true := by
  intro cs
  induction cs with
  | nil => rfl
  | cons c0 rest ih =>
    have h1 : (splitOne maxsz c0).isSome = true := by
      unfold splitOne
      split
      · rfl
      · exact splitLoop_isSome hm (by omega)
    unfold split_into_chunks
    cases hf : splitOne maxsz c0 with
    | none => rw [hf] at h1; simp at h1
    | some f =>
      cases hr : split_into_chunks maxsz rest with
      | none => rw [hr] at ih; simp at ih
      | some r => rfl

theorem computeEnd_space {t : List Char} {maxsz start : Nat}
    (hlt : min (start + maxsz) t.length < t.length)
    (hex : ∃ p, start < p ∧ p ≤ min (start + maxsz) t.length ∧ t[p]? = some ' ') :
    t[computeEnd t maxsz start]? = some ' ' := by
  rcases hex with ⟨p, hp1, hp2, hp3⟩
  rcases rfindSpace_ge hp2 hp3 with ⟨q, hq1, hq2⟩
  have hq3 := (rfindSpace_spec hq1).2
  have hsq : start < q := by omega
  unfold computeEnd
  simp only [if_pos hlt, hq1]
  rw [if_pos hsq]
  exact hq3

/-! ### Cleaner lemmas -/

/-- `l` contains an adjacent occurrence of the two-character pattern `[a, b]`. -/
def hasPair (a b : Char) : List Char → Bool
  | c :: d :: rest => (c == a && d == b) || hasPair a b (d :: rest)
  | _ => false

/-- `l` contains some two-character escape token that a `clean_text` pass
would rewrite. -/
def hasEscPair (l : List Char) : Bool :=
  hasPair bsC 'n' l || hasPair bsC 't' l || hasPair bsC 'r' l ||
  hasPair bsC dqC l || hasPair bsC sqC l || hasPair bsC bsC l

theorem replace2_of_no_pair {a b : Char} {rep : List Char} :
    ∀ {l : List Char}, hasPair a b l = false → replace2 a b rep l = l := by
  intro l
  induction l with
  | nil => intro _; rfl
  | cons c t ih =>
    intro h
    cases t with
    | nil => rfl
    | cons d rest =>
      simp only [hasPair, Bool.or_eq_false_iff] at h
      obtain ⟨h1, h2⟩ := h
      have hcond : ¬(c = a ∧ d = b) := by
        rintro ⟨rfl, rfl⟩; simp at h1
      unfold replace2
      rw [if_neg hcond, ih h2]

theorem dropWhile_idem {p : Char → Bool} (l : List Char) :
    (l.dropWhile p).dropWhile p = l.dropWhile p := by
  induction l with
  | nil => rfl
  | cons a t ih =>
    by_cases hp : p a
    · rw [List.dropWhile_cons_of_pos hp]; exact ih
    · rw [List.dropWhile_cons_of_neg hp, List.dropWhile_cons_of_neg hp]

theorem dropWhile_cons_eq_self {p : Char → Bool} {a : Char} {t : List Char}
    (h : (a :: t).dropWhile p = a :: t) : p a = false := by
  by_cases hp : p a
  · exfalso
    rw [List.dropWhile_cons_of_pos hp] at h
    have hsub : (t.dropWhile p).length ≤ t.length :=
      (List.dropWhile_sublist p).length_le
    have := congrArg List.length h
    simp at this
    omega
  · exact Bool.eq_false_iff.mpr hp

theorem trimRight_of_dropWhile {l : List Char}
    (h : l.dropWhile isSpaceB = l) :
    (trimRight l).dropWhile isSpaceB = trimRight l := by
  obtain ⟨w, hsplit⟩ : ∃ w, trimRight l ++ w = l := by
    refine ⟨(l.reverse.takeWhile isSpaceB).reverse, ?_⟩
    unfold trimRight
    rw [← List.reverse_append, List.takeWhile_append_dropWhile, List.reverse_reverse]
  cases he : trimRight l with
  | nil => rfl
  | cons b t' =>
    have hl : l = b :: (t' ++ w) := by
      rw [← hsplit, he]; rfl
    have hpb : isSpaceB b = false :=
      dropWhile_cons_eq_self
        (show (b :: (t' ++ w)).dropWhile isSpaceB = b :: (t' ++ w) by
          rw [← hl]; exact h)
    rw [List.dropWhile_cons_of_neg (by simp [hpb])]

theorem trimRight_idem (l : List Char) : trimRight (trimRight l) = trimRight l := by
  show ((l.reverse.dropWhile isSpaceB).reverse.reverse.dropWhile isSpaceB).reverse = _
  rw [List.reverse_reverse, dropWhile_idem]
  rfl

theorem trim_trim (l : List Char) : trim (trim l) = trim l := by
  unfold trim
  have h1 : (trimLeft l).dropWhile isSpaceB = trimLeft l := dropWhile_idem l
  have h2 : trimLeft (trimRight (trimLeft l)) = trimRight (trimLeft l) :=
    trimRight_of_dropWhile h1
  rw [h2, trimRight_idem]

theorem clean_text_eq_trim {v : List Char} (h : hasEscPair v = false) :
    clean_text v = trim v := by
  unfold hasEscPair at h
  simp only [Bool.or_eq_false_iff] at h
  obtain ⟨⟨⟨⟨⟨h1, h2⟩, h3⟩, h4⟩, h5⟩, h6⟩ := h
  unfold clean_text
  rw [replace2_of_no_pair h1, replace2_of_no_pair h2, replace2_of_no_pair h3,
      replace2_of_no_pair h4, replace2_of_no_pair h5, replace2_of_no_pair h6]

theorem trim_clean_text (x : List Char) : trim (clean_text x) = clean_text x := by
  show trim (trim _) = trim _
  exact trim_trim _

theorem clean_idem_of_normal {x : List Char}
    (h : hasEscPair (clean_text x) = false) :
    clean_text (clean_text x) = clean_text x := by
  rw [clean_text_eq_trim h, trim_clean_text]

/-! ### Worksheet lemmas -/

theorem lsw_self : ∀ (p s : List Char), lstartsWith p (p ++ s) = true := by
  intro p
  induction p with
  | nil => intro s; rfl
  | cons a as ih => intro s; simp [lstartsWith, ih]

theorem applyStep_skip {st : List Char × List Char × List (List Char × List Char)}
    {line : List Char} (h1 : lstartsWith idTag line = false)
    (h2 : lstartsWith origTag line = false)
    (h3 : lstartsWith transTag line = false) : applyStep st line = st := by
  simp [applyStep, h1, h2, h3]

theorem applyStep_id (st : List Char × List Char × List (List Char × List Char))
    (x : List Char) : applyStep st (idTag ++ x) = (x, st.2.1, st.2.2) := by
  have h4 : (idTag ++ x).drop 4 = x := by
    rw [show (4 : Nat) = idTag.length from rfl, List.drop_left]
  simp [applyStep, lsw_self, h4]

theorem applyStep_file (st : List Char × List Char × List (List Char × List Char))
    (x : List Char) : applyStep st (fileTag ++ x) = st :=
  applyStep_skip (by simp [idTag, fileTag, lstartsWith])
    (by simp [origTag, fileTag, lstartsWith])
    (by simp [transTag, fileTag, lstartsWith])

theorem applyStep_line (st : List Char × List Char × List (List Char × List Char))
    (x : List Char) : applyStep st (lineTag ++ x) = st :=
  applyStep_skip (by simp [idTag, lineTag, lstartsWith])
    (by simp [origTag, lineTag, lstartsWith])
    (by simp [transTag, lineTag, lstartsWith])

theorem applyStep_orig (st : List Char × List Char × List (List Char × List Char))
    (x : List Char) : applyStep st (origTag ++ x) = (st.1, x, st.2.2) := by
  have h10 : (origTag ++ x).drop 10 = x := by
    rw [show (10 : Nat) = origTag.length from rfl, List.drop_left]
  have h1 : lstartsWith idTag (origTag ++ x) = false := by
    simp [idTag, origTag, lstartsWith]
  simp [applyStep, lsw_self, h1, h10]

theorem applyStep_trans (st : List Char × List Char × List (List Char × List Char))
    (x : List Char) :
    applyStep st (transTag ++ x) =
      if nonPlaceholder x then (st.1, st.2.1, mapInsert st.2.2 st.2.1 x) else st := by
  have h13 : (transTag ++ x).drop 13 = x := by
    rw [show (13 : Nat) = transTag.length from rfl, List.drop_left]
  have h1 : lstartsWith idTag (transTag ++ x) = false := by
    simp [idTag, transTag, lstartsWith]
  have h2 : lstartsWith origTag (transTag ++ x) = false := by
    simp [origTag, transTag, lstartsWith]
  simp [applyStep, lsw_self, h1, h2, h13, nonPlaceholder]

theorem applyStep_dashes (st : List Char × List Char × List (List Char × List Char)) :
    applyStep st ['-', '-', '-'] = st :=
  applyStep_skip rfl rfl rfl

theorem applyStep_empty (st : List Char × List Char × List (List Char × List Char)) :
    applyStep st [] = st :=
  applyStep_skip rfl rfl rfl

theorem applyStep_hdr (st : List Char × List Char × List (List Char × List Char)) :
    applyStep st wsHeaderLine = st :=
  applyStep_skip rfl rfl rfl

/-- The map update a record contributes through the parser. -/
def recApply (m : List (List Char × List Char)) (r : TRecord) :
    List (List Char × List Char) :=
  if nonPlaceholder r.translation then mapInsert m r.original r.translation else m

theorem foldl_renderRecord (r : TRecord) (a b : List Char)
    (m : List (List Char × List Char)) :
    (renderRecord r).foldl applyStep (a, b, m) = (r.rid, r.original, recApply m r) := by
  unfold renderRecord recApply
  simp only [List.foldl_cons, List.foldl_nil]
  rw [applyStep_id, applyStep_file, applyStep_line, applyStep_orig, applyStep_trans]
  by_cases hnp : nonPlaceholder r.translation <;>
    simp [hnp, applyStep_dashes, applyStep_empty]

theorem foldl_records (rs : List TRecord) : ∀ (a b : List Char)
    (m : List (List Char × List Char)),
    ((rs.flatMap renderRecord).foldl applyStep (a, b, m)).2.2 = rs.foldl recApply m := by
  induction rs with
  | nil => intro a b m; rfl
  | cons r rest ih =>
    intro a b m
    rw [List.flatMap_cons, List.foldl_append, foldl_renderRecord, List.foldl_cons]
    exact ih _ _ _

theorem apply_translations_render (rs : List TRecord) :
    apply_translations (renderWorksheet rs) = rs.foldl recApply [] := by
  unfold apply_translations renderWorksheet
  simp only [List.foldl_cons]
  rw [applyStep_hdr, applyStep_empty]
  exact foldl_records rs [] [] []

theorem mapInsert_fresh {m : List (List Char × List Char)} {k v : List Char}
    (h : ∀ e ∈ m, e.1 ≠ k) : mapInsert m k v = m ++ [(k, v)] := by
  unfold mapInsert
  have hany : m.any (fun e => e.1 == k) = false := by
    rw [List.any_eq_false]
    intro e he
    simp only [beq_iff_eq]
    exact h e he
  rw [hany]
  simp

theorem runRecords_spec : ∀ (rs : List TRecord) (m : List (List Char × List Char)),
    ((rs.filter fun r => nonPlaceholder r.translation).map TRecord.original).Nodup →
    (∀ e ∈ m, ∀ r ∈ rs, nonPlaceholder r.translation = true → e.1 ≠ r.original) →
    (rs.foldl recApply m).length
        = m.length + (rs.filter fun r => nonPlaceholder r.translation).length ∧
    (∀ e ∈ m, e ∈ rs.foldl recApply m) ∧
    (∀ r ∈ rs, nonPlaceholder r.translation = true →
      (r.original, r.translation) ∈ rs.foldl recApply m) := by
  intro rs
  induction rs with
  | nil =>
    intro m _ _
    exact ⟨by simp, fun e he => he, fun r hr => absurd hr (List.not_mem_nil r)⟩
  | cons r rest ih =>
    intro m hnd hdisj
    by_cases hnp : nonPlaceholder r.translation = true
    · have hfilter : (r :: rest).filter (fun r => nonPlaceholder r.translation)
          = r :: rest.filter (fun r => nonPlaceholder r.translation) :=
        List.filter_cons_of_pos hnp
      rw [hfilter] at hnd
      simp only [List.map_cons, List.nodup_cons] at hnd
      obtain ⟨hhead, hnd'⟩ := hnd
      have hfresh : ∀ e ∈ m, e.1 ≠ r.original := fun e he =>
        hdisj e he r (List.mem_cons_self r rest) hnp
      have hstep : recApply m r = m ++ [(r.original, r.translation)] := by
        unfold recApply
        rw [if_pos hnp, mapInsert_fresh hfresh]
      have hdisj' : ∀ e ∈ m ++ [(r.original, r.translation)],
          ∀ r' ∈ rest, nonPlaceholder r'.translation = true → e.1 ≠ r'.original := by
        intro e he r' hr' hnp'
        rcases List.mem_append.mp he with he' | he'
        · exact hdisj e he' r' (List.mem_cons_of_mem r hr') hnp'
        · rw [List.mem_singleton] at he'
          subst he'
          intro heq
          apply hhead
          rw [show r.original = r'.original from heq]
          exact List.mem_map.mpr ⟨r', List.mem_filter.mpr ⟨hr', hnp'⟩, rfl⟩
      obtain ⟨ihlen, ihpres, ihmem⟩ :=
        ih (m ++ [(r.original, r.translation)]) hnd' hdisj'
      rw [List.foldl_cons, hstep]
      refine ⟨?_, ?_, ?_⟩
      · rw [ihlen, hfilter]
        simp
        omega
      · intro e he
        exact ihpres e (List.mem_append.mpr (Or.inl he))
      · intro r'' hr'' hnp''
        rcases List.mem_cons.mp hr'' with hr' | hr'
        · subst hr'
          exact ihpres _ (List.mem_append.mpr (Or.inr (List.mem_singleton.mpr rfl)))
        · exact ihmem r'' hr' hnp''
    · have hfilter : (r :: rest).filter (fun r => nonPlaceholder r.translation)
          = rest.filter (fun r => nonPlaceholder r.translation) :=
        List.filter_cons_of_neg (by simpa using hnp)
      rw [hfilter] at hnd
      have hstep : recApply m r = m := by
        unfold recApply
        rw [if_neg hnp]
      have hdisj' : ∀ e ∈ m, ∀ r' ∈ rest,
          nonPlaceholder r'.translation = true → e.1 ≠ r'.original :=
        fun e he r' hr' h => hdisj e he r' (List.mem_cons_of_mem r hr') h
      obtain ⟨ihlen, ihpres, ihmem⟩ := ih m hnd hdisj'
      rw [List.foldl_cons, hstep]
      refine ⟨?_, ?_, ?_⟩
      · rw [ihlen, hfilter]
      · exact ihpres
      · intro r'' hr'' hnp''
        rcases List.mem_cons.mp hr'' with hr' | hr'
        · subst hr'; exact absurd hnp'' hnp
        · exact ihmem r'' hr' hnp''

/-! ### Extraction lemmas -/

theorem mem_extract_from_lines {ml : Nat} {fp : String} {lines : List (List Char)}
    {c : TextChunk} (hc : c ∈ extract_from_lines ml fp lines) :
    1 ≤ c.line_number ∧ c.column_start ≤ c.column_end ∧ ml ≤ c.text.length := by
  unfold extract_from_lines at hc
  rcases List.mem_flatMap.mp hc with ⟨il, _, hc2⟩
  unfold chunksOfLine at hc2
  rcases List.mem_flatMap.mp hc2 with ⟨re, _, hc3⟩
  rcases List.mem_filterMap.mp hc3 with ⟨m, _, hmk⟩
  simp only at hmk
  split at hmk
  · rename_i hcond
    injection hmk with h'
    subst h'
    exact ⟨Nat.le_add_left 1 il.1, Nat.le_add_right _ _, hcond⟩
  · exact Option.noConfusion hmk

/-! ### Scenario B: a 120000-character spaceless chunk -/

theorem rfindSpace_replicate (n : Nat) : ∀ pos : Nat,
    rfindSpace (List.replicate n 'a') pos = none := by
  intro pos
  induction pos with
  | zero =>
    by_cases h : 0 < n <;> simp [rfindSpace, List.getElem?_replicate, h]
  | succ p ih =>
    by_cases h : p + 1 < n <;> simp [rfindSpace, List.getElem?_replicate, h, ih]

theorem computeEnd_replicate (n maxsz start : Nat) :
    computeEnd (List.replicate n 'a') maxsz start = min (start + maxsz) n := by
  rcases computeEnd_cases (List.replicate n 'a') maxsz start with h | ⟨p, hf, _, _⟩
  · rw [h, List.length_replicate]
  · rw [rfindSpace_replicate] at hf
    exact Option.noConfusion hf

theorem nextStart_replicate (n e : Nat) :
    nextStart (List.replicate n 'a') e = e := by
  unfold nextStart
  by_cases h : e < n <;> simp [List.getElem?_replicate, h]

/-- The 120000-character spaceless source chunk of Scenario B. -/
def bigChunk : TextChunk :=
  { text := List.replicate 120000 'a', file_path := "big.txt", line_number := 1,
    column_start := 0, column_end := 120000,
    context := List.replicate 120000 'a',
    original_text := List.replicate 120000 'a' }

theorem split_bigChunk :
    split_into_chunks 50000 [bigChunk] =
      some [mkFragment bigChunk (List.replicate 120000 'a') 0 50000 0,
            mkFragment bigChunk (List.replicate 120000 'a') 50000 100000 1,
            mkFragment bigChunk (List.replicate 120000 'a') 100000 120000 2] := by
  have hlen : (List.replicate (120000 : Nat) 'a').length = 120000 :=
    List.length_replicate 120000 'a'
  have hce : ∀ start maxsz : Nat,
      computeEnd (List.replicate 120000 'a') maxsz start = min (start + maxsz) 120000 :=
    fun start maxsz => computeEnd_replicate 120000 maxsz start
  have s3 : splitLoop 50000 bigChunk (List.replicate 120000 'a') 119997 120000 3
      = some [] := splitLoop_exit (by rw [hlen])
  have s2 : splitLoop 50000 bigChunk (List.replicate 120000 'a') 119998 100000 2
      = some [mkFragment bigChunk (List.replicate 120000 'a') 100000 120000 2] := by
    rw [show (119998 : Nat) = 119997 + 1 from rfl]
    rw [splitLoop_succ_some (by rw [hlen]; norm_num)
      (by rw [hce, nextStart_replicate,
              show min (100000 + 50000) 120000 = 120000 from by norm_num]
          exact s3)]
    rw [hce, show min (100000 + 50000) 120000 = 120000 from by norm_num]
  have s1 : splitLoop 50000 bigChunk (List.replicate 120000 'a') 119999 50000 1
      = some [mkFragment bigChunk (List.replicate 120000 'a') 50000 100000 1,
              mkFragment bigChunk (List.replicate 120000 'a') 100000 120000 2] := by
    rw [show (119999 : Nat) = 119998 + 1 from rfl]
    rw [splitLoop_succ_some (by rw [hlen]; norm_num)
      (by rw [hce, nextStart_replicate,
              show min (50000 + 50000) 120000 = 100000 from by norm_num]
          exact s2)]
    rw [hce, show min (50000 + 50000) 120000 = 100000 from by norm_num]
  have s0 : splitLoop 50000 bigChunk (List.replicate 120000 'a') 120000 0 0
      = some [mkFragment bigChunk (List.replicate 120000 'a') 0 50000 0,
              mkFragment bigChunk (List.replicate 120000 'a') 50000 100000 1,
              mkFragment bigChunk (List.replicate 120000 'a') 100000 120000 2] := by
    rw [show (120000 : Nat) = 119999 + 1 from rfl]
    rw [splitLoop_succ_some (by rw [hlen]; norm_num)
      (by rw [hce, nextStart_replicate,
              show min (0 + 50000) 120000 = 50000 from by norm_num]
          exact s1)]
    rw [hce, show min (0 + 50000) 120000 = 50000 from by norm_num]
  have htext : bigChunk.text = List.replicate 120000 'a' := rfl
  have hne : ¬ bigChunk.text.length ≤ 50000 := by
    rw [htext, hlen]; norm_num
  have hone : splitOne 50000 bigChunk =
      some [mkFragment bigChunk (List.replicate 120000 'a') 0 50000 0,
            mkFragment bigChunk (List.replicate 120000 'a') 50000 100000 1,
            mkFragment bigChunk (List.replicate 120000 'a') 100000 120000 2] := by
    have h1 : splitOne 50000 bigChunk =
        splitLoop 50000 bigChunk bigChunk.text bigChunk.text.length 0 0 := by
      unfold splitOne
      rw [if_neg hne]
    rw [h1, htext, hlen, s0]
  have hcons := split_into_chunks_cons_eq hone
    (show split_into_chunks 50000 [] = some [] from rfl)
  exact hcons.trans (by rw [List.append_nil])

/-! ### Sample data used by witnesses and counterexamples -/

/-- A chunk with the given text and neutral provenance fields. -/
def sampleChunk (s : List Char) : TextChunk :=
  { text := s, file_path := "sample.txt", line_number := 1, column_start := 0,
    column_end := s.length, context := s, original_text := s }

/-- Chunk with text `abc`. -/
def abcChunk : TextChunk := sampleChunk ('a' :: 'b' :: 'c' :: [])

/-- Chunk with text `ab cd`. -/
def wordsChunk : TextChunk := sampleChunk ('a' :: 'b' :: ' ' :: 'c' :: 'd' :: [])

/-- Chunk with text `a`. -/
def aChunk : TextChunk := sampleChunk ('a' :: [])

/-- Chunk whose text is one space. -/
def spaceChunk : TextChunk := sampleChunk (' ' :: [])

/-- A filled-in worksheet record. -/
def recA : TRecord :=
  ⟨("1").toList, ("f").toList, ("1").toList, ("Hello").toList, ("Bonjour").toList⟩

/-- Worksheet lines where the second record has a `Translation:` line but no
`Original:` line. -/
def staleLines : List (List Char) :=
  renderRecord recA ++
  [idTag ++ ("2").toList, fileTag ++ ("f").toList, lineTag ++ ("2").toList,
   transTag ++ ("Salut").toList, ['-', '-', '-'], []]

/-! ### Claims -/

/-- C1: for every input chunk sequence, every chunk returned by
`split_into_chunks` has text length at most `max_chunk_size`; every input
chunk whose text length is already within the bound appears in the output
unchanged; and whenever a non-final fragment boundary is placed, it lands on
a space character if one exists in the searched span strictly after the
fragment's start. -/
theorem claim_split_bound_pass_space (maxsz : Nat) (cs out : List TextChunk)
    (h : split_into_chunks maxsz cs = some out) :
    (∀ c ∈ out, c.text.length ≤ maxsz) ∧
    (∀ c ∈ cs, c.text.length ≤ maxsz → c ∈ out) ∧
    (∀ (t : List Char) (start : Nat), min (start + maxsz) t.length < t.length →
      (∃ p, start < p ∧ p ≤ min (start + maxsz) t.length ∧ t[p]? = some ' ') →
      t[computeEnd t maxsz start]? = some ' ') :=
  ⟨split_into_chunks_bound h, split_into_chunks_pass h,
   fun _ _ hlt hex => computeEnd_space hlt hex⟩

/-- Witness for C1 at the concrete input `[abcChunk]` with the default
`max_chunk_size`. -/
theorem claim_split_bound_pass_space_witness :
    (∀ c ∈ [abcChunk], c.text.length ≤ 50000) ∧
    (∀ c ∈ [abcChunk], c.text.length ≤ 50000 → c ∈ [abcChunk]) ∧
    (∀ (t : List Char) (start : Nat), min (start + 50000) t.length < t.length →
      (∃ p, start < p ∧ p ≤ min (start + 50000) t.length ∧ t[p]? = some ' ') →
      t[computeEnd t 50000 start]? = some ' ') :=
  claim_split_bound_pass_space 50000 [abcChunk] [abcChunk] (by rfl)

/-- C5: rejoining the fragments of a split chunk, reinserting one space at
each space-based cut and nothing at hard cuts, reconstructs the original
text. -/
theorem claim_split_roundtrip (maxsz : Nat) (ch : TextChunk)
    (frags : List TextChunk) (h : split_into_chunks maxsz [ch] = some frags) :
    ∃ bs, rejoin (frags.map TextChunk.text) bs = ch.text := by
  have hone := split_into_chunks_singleton h
  unfold splitOne at hone
  split at hone
  · injection hone with h'
    subst h'
    exact ⟨[], by simp [rejoin]⟩
  · have hres := splitLoop_rejoin hone
    simpa using hres

/-- Witness for C5: the chunk `ab cd` split with `max_chunk_size = 3` into
`ab` and `cd`, rejoined with one reinserted space. -/
theorem claim_split_roundtrip_witness :
    ∃ bs, rejoin (([mkFragment wordsChunk wordsChunk.text 0 2 0,
      mkFragment wordsChunk wordsChunk.text 3 5 1]).map TextChunk.text) bs =
      wordsChunk.text :=
  claim_split_roundtrip 3 wordsChunk
    [mkFragment wordsChunk wordsChunk.text 0 2 0,
     mkFragment wordsChunk wordsChunk.text 3 5 1] (by rfl)

/-- C6: a single 120000-character spaceless chunk with
`max_chunk_size = 50000` splits into exactly 3 fragments of lengths 50000,
50000 and 20000, with zero-based `_chunk_<n>` path suffixes. -/
theorem claim_scenario_b :
    ∃ out, split_into_chunks 50000 [bigChunk] = some out ∧
      out.map (fun c => c.text.length) = [50000, 50000, 20000] ∧
      out.map TextChunk.file_path =
        ["big.txt_chunk_0", "big.txt_chunk_1", "big.txt_chunk_2"] := by
  refine ⟨_, split_bigChunk, ?_, ?_⟩
  · simp only [List.map_cons, List.map_nil, mkFragment]
    rw [List.drop_replicate, List.drop_replicate, List.drop_replicate,
        List.take_replicate, List.take_replicate, List.take_replicate]
    simp only [List.length_replicate]
    norm_num
  · simp only [List.map_cons, List.map_nil, mkFragment]
    show ([(bigChunk.file_path ++ "_chunk_" ++ toString 0),
          (bigChunk.file_path ++ "_chunk_" ++ toString 1),
          (bigChunk.file_path ++ "_chunk_" ++ toString 2)] : List String) = _
    decide

/-- C9: every extracted chunk satisfies `line_number ≥ 1`,
`column_start ≤ column_end` and cleaned length at least the minimum, and
after the split stage every chunk is within `max_chunk_size`. -/
theorem claim_chunk_invariants (ml maxsz : Nat) (fp : String)
    (lines : List (List Char)) (out : List TextChunk)
    (h : split_into_chunks maxsz (extract_from_lines ml fp lines) = some out) :
    (∀ c ∈ extract_from_lines ml fp lines,
        1 ≤ c.line_number ∧ c.column_start ≤ c.column_end ∧ ml ≤ c.text.length) ∧
    (∀ c ∈ out, c.text.length ≤ maxsz) :=
  ⟨fun _ hc => mem_extract_from_lines hc, split_into_chunks_bound h⟩

/-- Witness for C9 with the default thresholds on an empty file. -/
theorem claim_chunk_invariants_witness :
    (∀ c ∈ extract_from_lines 3 "w.txt" [],
        1 ≤ c.line_number ∧ c.column_start ≤ c.column_end ∧ 3 ≤ c.text.length) ∧
    (∀ c ∈ ([] : List TextChunk), c.text.length ≤ 50000) :=
  claim_chunk_invariants 3 50000 "w.txt" [] [] (by rfl)

/-- C10 (amended): with `max_chunk_size ≥ 1` the splitter terminates on every
input (the fuel `text.length` always suffices), and with `max_chunk_size = 0`
the loop makes no progress on any chunk whose text contains a non-space
character at or after the current start, whatever fuel it is given. -/
theorem claim_split_termination (maxsz : Nat) (hm : 1 ≤ maxsz)
    (cs : List TextChunk) (ch : TextChunk) (t : List Char)
    (fuel start cid i : Nat)
    (hi : start ≤ i ∧ i < t.length ∧ ¬ t[i]? = some ' ') :
    (split_into_chunks maxsz cs).isSome = true ∧
    splitLoop 0 ch t fuel start cid = none :=
  ⟨split_into_chunks_isSome hm cs, splitLoop_stuck ⟨i, hi.1, hi.2.1, hi.2.2⟩⟩

/-- Witness for C10 at `maxsz = 1` and the one-character text `a`. -/
theorem claim_split_termination_witness :
    (split_into_chunks 1 [aChunk]).isSome = true ∧
    splitLoop 0 aChunk ('a' :: []) 5 0 0 = none :=
  claim_split_termination 1 (by decide) [aChunk] aChunk ('a' :: []) 5 0 0 0
    (by refine ⟨Nat.le_refl 0, by decide, by decide⟩)

/-- C10 counterexample: with `max_chunk_size = 0` and the non-empty all-space
text, the loop does make progress (the skip-one-space step advances it), so
the claim's `no progress for every non-empty text` reading fails; the split
terminates and returns an empty fragment. -/
theorem claim_split_zero_progress_cex :
    spaceChunk.text ≠ [] ∧
    split_into_chunks 0 [spaceChunk] =
      some [mkFragment spaceChunk (' ' :: []) 0 0 0] := by
  constructor
  · decide
  · rfl

/-- C3 counterexample: the three-character input backslash-backslash-n does
not clean to backslash-n. -/
theorem claim_clean_cex : ¬ clean_text [bsC, bsC, 'n'] = [bsC, 'n'] := by decide

/-- C3 (amended): the substitutions run in the fixed order with the
backslash step last, and a doubled backslash followed by a non-escape,
non-space character decodes to a single backslash followed by that
character; but backslash-backslash-n cleans to a single backslash (the inner
backslash-n pair is replaced by a newline first, and the final trim removes
it), not to backslash followed by literal n. -/
theorem claim_clean_order (c : Char)
    (h1 : (c == 'n' || c == 't' || c == 'r' || c == dqC || c == sqC || c == bsC)
      = false)
    (h2 : isSpaceB c = false) :
    clean_text [bsC, bsC, c] = [bsC, c] ∧ clean_text [bsC, bsC, 'n'] = [bsC] := by
  simp only [Bool.or_eq_false_iff] at h1
  obtain ⟨⟨⟨⟨⟨hn, ht⟩, hr'⟩, hq⟩, hs⟩, hb⟩ := h1
  constructor
  · have bn : (bsC == 'n') = false := by decide
    have bt : (bsC == 't') = false := by decide
    have br : (bsC == 'r') = false := by decide
    have bq : (bsC == dqC) = false := by decide
    have bs' : (bsC == sqC) = false := by decide
    have e1 : replace2 bsC 'n' [Char.ofNat 10] [bsC, bsC, c] = [bsC, bsC, c] :=
      replace2_of_no_pair (by simp [hasPair, bn, hn])
    have e2 : replace2 bsC 't' [Char.ofNat 9] [bsC, bsC, c] = [bsC, bsC, c] :=
      replace2_of_no_pair (by simp [hasPair, bt, ht])
    have e3 : replace2 bsC 'r' [Char.ofNat 13] [bsC, bsC, c] = [bsC, bsC, c] :=
      replace2_of_no_pair (by simp [hasPair, br, hr'])
    have e4 : replace2 bsC dqC [dqC] [bsC, bsC, c] = [bsC, bsC, c] :=
      replace2_of_no_pair (by simp [hasPair, bq, hq])
    have e5 : replace2 bsC sqC [sqC] [bsC, bsC, c] = [bsC, bsC, c] :=
      replace2_of_no_pair (by simp [hasPair, bs', hs])
    have e6 : replace2 bsC bsC [bsC] [bsC, bsC, c] = [bsC, c] := by
      simp [replace2]
    have hsb : isSpaceB bsC = false := by decide
    have e7 : trim [bsC, c] = [bsC, c] := by
      simp [trim, trimLeft, trimRight, List.dropWhile_cons, hsb, h2]
    unfold clean_text
    rw [e1, e2, e3, e4, e5, e6, e7]
  · decide

/-- Witness for C3 at `c = 'x'`. -/
theorem claim_clean_order_witness :
    clean_text [bsC, bsC, 'x'] = [bsC, 'x'] ∧ clean_text [bsC, bsC, 'n'] = [bsC] :=
  claim_clean_order 'x' (by decide) (by decide)

/-- C4 counterexample: three backslashes clean to two, and cleaning again
gives one, so the cleaner is not idempotent. -/
theorem claim_clean_not_idem :
    ¬ clean_text (clean_text [bsC, bsC, bsC]) = clean_text [bsC, bsC, bsC] := by
  decide

/-- C4 (amended): the cleaner is idempotent on every input whose cleaned
result contains no two-character escape token (no backslash immediately
followed by n, t, r, a quote, or another backslash). -/
theorem claim_clean_idem_normal (x : List Char)
    (h : hasEscPair (clean_text x) = false) :
    clean_text (clean_text x) = clean_text x :=
  clean_idem_of_normal h

/-- Witness for C4 at the input `abc`. -/
theorem claim_clean_idem_normal_witness :
    clean_text (clean_text ('a' :: 'b' :: 'c' :: [])) =
      clean_text ('a' :: 'b' :: 'c' :: []) :=
  claim_clean_idem_normal ('a' :: 'b' :: 'c' :: []) (by decide)

/-- C2 (amended): for records rendered in the worksheet format whose
non-placeholder originals are pairwise distinct, `apply_translations` yields
exactly one mapping per non-placeholder record, keyed by that record's
original; without the distinctness condition later records overwrite
earlier ones, and a record lacking an `Original:` line is keyed to the most
recently seen original rather than rejected. -/
theorem claim_worksheet_reapply (rs : List TRecord)
    (hnd : ((rs.filter fun r => nonPlaceholder r.translation).map
      TRecord.original).Nodup) :
    (apply_translations (renderWorksheet rs)).length
        = (rs.filter fun r => nonPlaceholder r.translation).length ∧
    ∀ r ∈ rs, nonPlaceholder r.translation = true →
      (r.original, r.translation) ∈ apply_translations (renderWorksheet rs) := by
  rw [apply_translations_render]
  obtain ⟨hlen, _, hmem⟩ := runRecords_spec rs [] hnd
    (by intro e he; exact absurd he (List.not_mem_nil e))
  exact ⟨by simpa using hlen, hmem⟩

/-- Witness for C2 on a one-record worksheet. -/
theorem claim_worksheet_reapply_witness :
    (apply_translations (renderWorksheet [recA])).length
        = ([recA].filter fun r => nonPlaceholder r.translation).length ∧
    ∀ r ∈ [recA], nonPlaceholder r.translation = true →
      (r.original, r.translation) ∈ apply_translations (renderWorksheet [recA]) :=
  claim_worksheet_reapply [recA] (by decide)

/-- C2 counterexample: a worksheet whose second record carries a
`Translation:` line but no `Original:` line; the parser silently associates
the stale original `Hello` of the first record with the second record's
translation `Salut`, instead of rejecting the record, and the resulting map
has one entry instead of two. -/
theorem claim_worksheet_stale :
    apply_translations staleLines = [(("Hello").toList, ("Salut").toList)] := by
  decide

/-- C8 (amended): a file that cannot be opened is counted in
`total_files_processed`, contributes zero chunks and no error output, and
the remaining files of the batch produce exactly the chunks they would
produce without it. -/
theorem claim_openfail (ml maxsz : Nat) (hm : 1 ≤ maxsz)
    (pre post : List (String × Option (List (List Char)))) (p : String) :
    extract_from_file ml p none = ([], []) ∧
    ∃ r r', extract_texts ml maxsz (pre ++ (p, none) :: post) = some r ∧
      extract_texts ml maxsz (pre ++ post) = some r' ∧
      r.chunks = r'.chunks ∧
      r.total_files_processed = pre.length + post.length + 1 := by
  refine ⟨rfl, ?_⟩
  have hraw : ((pre ++ (p, none) :: post).flatMap
        fun pc => (extract_from_file ml pc.1 pc.2).1)
      = ((pre ++ post).flatMap fun pc => (extract_from_file ml pc.1 pc.2).1) := by
    rw [List.flatMap_append, List.flatMap_cons, List.flatMap_append]
    simp [extract_from_file]
  have hsome := split_into_chunks_isSome hm
    ((pre ++ post).flatMap fun pc => (extract_from_file ml pc.1 pc.2).1)
  cases hsplit : split_into_chunks maxsz
      ((pre ++ post).flatMap fun pc => (extract_from_file ml pc.1 pc.2).1) with
  | none => rw [hsplit] at hsome; simp at hsome
  | some chunks =>
    refine ⟨⟨chunks, (pre ++ (p, none) :: post).length, chunks.length⟩,
            ⟨chunks, (pre ++ post).length, chunks.length⟩, ?_, ?_, rfl, ?_⟩
    · unfold extract_texts
      rw [hraw, hsplit]
    · unfold extract_texts
      rw [hsplit]
    · simp [List.length_append]
      omega

/-- Witness for C8 on a batch holding only the unopenable file. -/
theorem claim_openfail_witness :
    extract_from_file 3 "x.txt" none = ([], []) ∧
    ∃ r r', extract_texts 3 50000
        (([] : List (String × Option (List (List Char)))) ++ ("x.txt", none) :: [])
        = some r ∧
      extract_texts 3 50000
        (([] : List (String × Option (List (List Char)))) ++ []) = some r' ∧
      r.chunks = r'.chunks ∧
      r.total_files_processed =
        ([] : List (String × Option (List (List Char)))).length +
          ([] : List (String × Option (List (List Char)))).length + 1 :=
  claim_openfail 3 50000 (by norm_num) [] [] "x.txt"

/-- C8 counterexample: the open-failure branch of `extract_from_file`
produces no error output at all (the function returns silently), so the
failure is not reported as a per-file error. -/
theorem claim_openfail_not_logged :
    (extract_from_file 3 "bad.txt" none).2 = [] := rfl

/-- The Scenario A line `name: "Hello World"`. -/
def lineA : List Char :=
  ("name: ").toList ++ [dqC] ++ ("Hello World").toList ++ [dqC]

/-- The chunk the generic double-quoted-literal rule produces on `lineA`. -/
def dqChunkA : TextChunk :=
  { text := ("Hello World").toList, file_path := "f.txt", line_number := 1,
    column_start := 7, column_end := 18, context := lineA,
    original_text := [dqC] ++ ("Hello World").toList ++ [dqC] }

/-- The chunk the `name` key/value rule produces on `lineA`. -/
def nameChunkA : TextChunk :=
  { text := ("Hello World").toList, file_path := "f.txt", line_number := 1,
    column_start := 7, column_end := 18, context := lineA,
    original_text := lineA }

theorem extract_lineA :
    extract_from_lines 3 "f.txt" [lineA] = [dqChunkA, nameChunkA] := by
  decide

/-- C7: extracting from a file containing the line `name: "Hello World"`
yields at least two chunks whose cleaned text is `Hello World` — one from
the `name` key/value rule (whole key/value span as `original_text`) and one
from the generic double-quoted-literal rule (quoted span only) — and they
differ in `original_text`. -/
theorem claim_scenario_a :
    ∃ c1 c2, c1 ∈ extract_from_lines 3 "f.txt" [lineA] ∧
      c2 ∈ extract_from_lines 3 "f.txt" [lineA] ∧ c1 ≠ c2 ∧
      c1.text = ("Hello World").toList ∧ c2.text = ("Hello World").toList ∧
      c1.original_text = lineA ∧
      c2.original_text = [dqC] ++ ("Hello World").toList ++ [dqC] := by
  refine ⟨nameChunkA, dqChunkA, ?_, ?_, ?_, rfl, rfl, rfl, rfl⟩
  · rw [extract_lineA]
    exact List.mem_cons_of_mem _ (List.mem_singleton.mpr rfl)
  · rw [extract_lineA]
    exact List.mem_cons_self _ _
  · decide

end TextExtractor
